import Mathlib

/-!
Verification development for the MatrixReduction repository.

The notebook implements an offline/online reduced-order-model pipeline:
exact transfer-function evaluation, a POD-Galerkin reduction of the
parametrized operator sI - A (and of its adjoint), construction of the
interpolatory projection matrices V and W, and a Gram-Schmidt based
orthogonalization step with an optional biorthogonal normalization.
The embedding below translates the numerical code into exact arithmetic
over a field with a star operation; square roots appearing inside the
normalization of Gram-Schmidt are abstracted by an explicit function
argument, since no computable square root exists on an abstract field.
-/

set_option maxHeartbeats 1600000

namespace MatrixReduction

open Matrix

section ModelDefs

variable {K : Type*} [Field K] [StarRing K]
variable {n r k m : ℕ}

/-- Inverse of a square matrix written with the field inverse of the
determinant, mirroring np.linalg.inv in exact arithmetic.  It agrees with
the Mathlib nonsingular inverse (see matInv_eq_inv below) and is
computable over a computable field such as ℚ. -/
def matInv (M : Matrix (Fin m) (Fin m) K) : Matrix (Fin m) (Fin m) K :=
  (M.det)⁻¹ • M.adjugate

/-- Embedding of TF_exact from the source: C @ inv(s*eye(n) - A) @ B. -/
def TF_exact (A : Matrix (Fin n) (Fin n) K) (B : Matrix (Fin n) (Fin 1) K)
    (C : Matrix (Fin 1) (Fin n) K) (s : K) : Matrix (Fin 1) (Fin 1) K :=
  C * matInv (s • (1 : Matrix (Fin n) (Fin n) K) - A) * B

/-- Parametrized full-order operator sI - A, the LincombOperator
[I_op, A_op] with coefficients [s, -1] built by MatrixModel. -/
def fullOp (A : Matrix (Fin n) (Fin n) K) (s : K) : Matrix (Fin n) (Fin n) K :=
  s • (1 : Matrix (Fin n) (Fin n) K) - A

/-- Adjoint parametrized operator conj(s)I - A^H, the LincombOperator
[I_op, A_op.H] with coefficients [conj s, -1] built by MatrixModel for the
W-side model. -/
def adjOp (A : Matrix (Fin n) (Fin n) K) (s : K) : Matrix (Fin n) (Fin n) K :=
  (star s) • (1 : Matrix (Fin n) (Fin n) K) - Aᴴ

/-- Reduced operator of the primal model produced by StationaryRBReductor
with basis P: each term of the affine operator is projected, giving
s (P^H P) - P^H A P. -/
def romOperator (A : Matrix (Fin n) (Fin n) K) (P : Matrix (Fin n) (Fin k) K)
    (s : K) : Matrix (Fin k) (Fin k) K :=
  s • (Pᴴ * P) - Pᴴ * A * P

/-- Reduced operator of the adjoint model: conj(s) (Q^H Q) - Q^H A^H Q. -/
def adjRomOperator (A : Matrix (Fin n) (Fin n) K) (Q : Matrix (Fin n) (Fin k) K)
    (s : K) : Matrix (Fin k) (Fin k) K :=
  (star s) • (Qᴴ * Q) - Qᴴ * Aᴴ * Q

/-- Reduced solution of the primal reduced model at parameter s. -/
def romSolve (A : Matrix (Fin n) (Fin n) K) (B : Matrix (Fin n) (Fin 1) K)
    (P : Matrix (Fin n) (Fin k) K) (s : K) : Matrix (Fin k) (Fin 1) K :=
  matInv (romOperator A P s) * (Pᴴ * B)

/-- Reduced solution of the adjoint reduced model at parameter s; the
right-hand side of the W-side model is the transpose of the output row C. -/
def adjRomSolve (A : Matrix (Fin n) (Fin n) K) (Cm : Matrix (Fin 1) (Fin n) K)
    (Q : Matrix (Fin n) (Fin k) K) (s : K) : Matrix (Fin k) (Fin 1) K :=
  matInv (adjRomOperator A Q s) * (Qᴴ * Cmᵀ)

/-- Output of the reduced model: the online phase of TFROM evaluates
(C P) z where z is the reduced solution. -/
def romOutput (A : Matrix (Fin n) (Fin n) K) (B : Matrix (Fin n) (Fin 1) K)
    (C : Matrix (Fin 1) (Fin n) K) (P : Matrix (Fin n) (Fin k) K) (s : K) :
    Matrix (Fin 1) (Fin 1) K :=
  (C * P) * romSolve A B P s

/-- Matrix R_V of ProjectionMatrices: column j is the full-space
reconstruction P z(mu_j) of the reduced primal solution at point mu_j. -/
def R_Vmat (A : Matrix (Fin n) (Fin n) K) (B : Matrix (Fin n) (Fin 1) K)
    (P : Matrix (Fin n) (Fin k) K) (mu : Fin r → K) : Matrix (Fin n) (Fin r) K :=
  Matrix.of fun i j => (P * romSolve A B P (mu j)) i 0

/-- Matrix R_W of ProjectionMatrices: column j is the full-space
reconstruction Q z(mu_j) of the reduced adjoint solution at point mu_j. -/
def R_Wmat (A : Matrix (Fin n) (Fin n) K) (Cm : Matrix (Fin 1) (Fin n) K)
    (Q : Matrix (Fin n) (Fin k) K) (mu : Fin r → K) : Matrix (Fin n) (Fin r) K :=
  Matrix.of fun i j => (Q * adjRomSolve A Cm Q (mu j)) i 0

/-- Projection matrix V of ProjectionMatrices: V = R_V @ diag(b). -/
def PM_V (A : Matrix (Fin n) (Fin n) K) (B : Matrix (Fin n) (Fin 1) K)
    (P : Matrix (Fin n) (Fin k) K) (mu b : Fin r → K) : Matrix (Fin n) (Fin r) K :=
  R_Vmat A B P mu * Matrix.diagonal b

/-- Projection matrix W of ProjectionMatrices: W = R_W @ diag(c). -/
def PM_W (A : Matrix (Fin n) (Fin n) K) (Cm : Matrix (Fin 1) (Fin n) K)
    (Q : Matrix (Fin n) (Fin k) K) (mu c : Fin r → K) : Matrix (Fin n) (Fin r) K :=
  R_Wmat A Cm Q mu * Matrix.diagonal c

/-- Closed-form projection matrix from the function named exact in the
source: V_exact = hstack((s_j I - A)^{-1} B) @ diag(b). -/
def exactV (A : Matrix (Fin n) (Fin n) K) (B : Matrix (Fin n) (Fin 1) K)
    (mu b : Fin r → K) : Matrix (Fin n) (Fin r) K :=
  (Matrix.of fun i j => (matInv (fullOp A (mu j)) * B) i 0) * Matrix.diagonal b

/-- Closed-form projection matrix from the function named exact in the
source: W_exact = hstack(conj((s_j I - A)^{-1})^T C^T) @ diag(c). -/
def exactW (A : Matrix (Fin n) (Fin n) K) (Cm : Matrix (Fin 1) (Fin n) K)
    (mu c : Fin r → K) : Matrix (Fin n) (Fin r) K :=
  (Matrix.of fun i j => ((matInv (fullOp A (mu j)))ᴴ * Cmᵀ) i 0) * Matrix.diagonal c

end ModelDefs

section GramDefs

variable {K : Type*} [Field K] [StarRing K]
variable {n r : ℕ}

/-- Inner product of two columns, with conjugation on the left argument as
in the library inner product used by gram_schmidt. -/
def dotc (x y : Fin n → K) : K := ∑ i, star (x i) * y i

/-- Sequential projection step of modified Gram-Schmidt: subtract from the
working column its component along each already-computed orthonormal
column, updating the working column after every subtraction. -/
def mgsProj (qs : List (Fin n → K)) (v : Fin n → K) : Fin n → K :=
  qs.foldl (fun w q => w - dotc q w • q) v

/-- Normalization of a column by its norm.  The square root of the field
element dotc v v is taken by the explicit function argument sq, which
abstracts the numerical square root. -/
def normalizeCol (sq : K → K) (v : Fin n → K) : Fin n → K :=
  (sq (dotc v v))⁻¹ • v

/-- Modelled from the spec: the pymor routine gram_schmidt called by Gram
is external library code; the spec describes it as modified Gram-Schmidt
over columns.  This worker processes the remaining columns one at a time,
accumulating the already-orthonormalized columns in reverse order.  The
reorthogonalization pass of the spec is a floating-point safeguard with no
effect in exact arithmetic and is not modelled. -/
def mgsAux (sq : K → K) : List (Fin n → K) → List (Fin n → K) → List (Fin n → K)
  | qs, [] => qs.reverse
  | qs, v :: vs => mgsAux sq (normalizeCol sq (mgsProj qs v) :: qs) vs

/-- Modified Gram-Schmidt on a list of columns. -/
def mgs (sq : K → K) (cols : List (Fin n → K)) : List (Fin n → K) :=
  mgsAux sq [] cols

/-- Column j of a matrix, as a single vector. -/
def colF (A : Matrix (Fin n) (Fin r) K) (j : Fin r) : Fin n → K :=
  fun i => A i j

/-- Columns of a matrix, listed left to right. -/
def colsOf (A : Matrix (Fin n) (Fin r) K) : List (Fin n → K) :=
  (List.finRange r).map (colF A)

/-- Modelled from the spec: matrix form of the external pymor routine
gram_schmidt, orthonormalizing the columns of the input matrix by modified
Gram-Schmidt. -/
def gram_schmidt (sq : K → K) (A : Matrix (Fin n) (Fin r) K) :
    Matrix (Fin n) (Fin r) K :=
  Matrix.of fun i j => (mgs sq (colsOf A)).getD j (fun _ => 0) i

/-- Embedding of the Gram function from the source: orthonormalize V and W
independently; with biort=True additionally replace the orthonormalized V
by V_orth @ inv(W_orth.T @ V_orth), leaving W_orth unchanged. -/
def Gram (sq : K → K) (V W : Matrix (Fin n) (Fin r) K) (biort : Bool) :
    Matrix (Fin n) (Fin r) K × Matrix (Fin n) (Fin r) K :=
  let Vo := gram_schmidt sq V
  let Wo := gram_schmidt sq W
  if biort then (Vo * matInv (Woᵀ * Vo), Wo) else (Vo, Wo)

end GramDefs

section ErrorDefs

variable {K : Type*} [Field K] [StarRing K]
variable {n : ℕ}

/-- Failure cases surfaced by the pipeline, named after the error taxonomy
of the spec. -/
inductive RomError where
  | rankExceeded
  | inputShape
  deriving DecidableEq

/-- First k columns of the left singular factor U, the slice U[:, :k]. -/
def truncCols (U : Matrix (Fin n) (Fin n) K) (k : ℕ) :
    Matrix (Fin n) (Fin k) K :=
  Matrix.of fun i j => if h : (j : ℕ) < n then U i ⟨j, h⟩ else 0

/-- Embedding of the guard and truncation logic of MatrixReductor.  The
snapshot matrices are n-by-count, so min(shape) = min n count; the two
left singular factors U_V and U_W computed by the external SVD are taken
as inputs.  A requested reduced order larger than min(shape) raises, in
source order first for the V side and then for the W side. -/
def MatrixReductor (count kV kW : ℕ) (U_V U_W : Matrix (Fin n) (Fin n) K) :
    Except RomError (Matrix (Fin n) (Fin kV) K × Matrix (Fin n) (Fin kW) K) :=
  if kV > min n count then Except.error RomError.rankExceeded
  else if kW > min n count then Except.error RomError.rankExceeded
  else Except.ok (truncCols U_V kV, truncCols U_W kW)

end ErrorDefs

section RawDefs

variable {K : Type*} [Field K] [StarRing K]
variable {n k : ℕ}

/-- Dense matrix with run-time shape, as a numpy ndarray: entries outside
the declared shape are irrelevant. -/
structure RawMat (K : Type*) where
  rows : ℕ
  cols : ℕ
  entry : ℕ → ℕ → K

/-- Modelled from the spec: numpy matmul on two-dimensional arrays, which
is external library code; it requires the inner dimensions to agree and
otherwise raises, which the spec taxonomy maps to InputShapeError. -/
def matmulChecked (Am Bm : RawMat K) : Except RomError (RawMat K) :=
  if Am.cols = Bm.rows then
    Except.ok ⟨Am.rows, Bm.cols,
      fun i j => ∑ t ∈ Finset.range Am.cols, Am.entry i t * Bm.entry t j⟩
  else Except.error RomError.inputShape

/-- Square diagonal matrix np.diag(b) built from a vector given as a list. -/
def diagRaw (b : List K) : RawMat K :=
  ⟨b.length, b.length, fun i j => if i = j then b.getD i 0 else 0⟩

/-- Shape-carrying form of the matrix R_V assembled by ProjectionMatrices:
n rows and one column per interpolation point. -/
def R_Vraw (A : Matrix (Fin n) (Fin n) K) (B : Matrix (Fin n) (Fin 1) K)
    (P : Matrix (Fin n) (Fin k) K) (mu : List K) : RawMat K :=
  ⟨n, mu.length, fun i j =>
    if h : i < n then (P * romSolve A B P (mu.getD j 0)) ⟨i, h⟩ 0 else 0⟩

/-- Shape-carrying form of the matrix R_W assembled by ProjectionMatrices. -/
def R_Wraw (A : Matrix (Fin n) (Fin n) K) (Cm : Matrix (Fin 1) (Fin n) K)
    (Q : Matrix (Fin n) (Fin k) K) (mu : List K) : RawMat K :=
  ⟨n, mu.length, fun i j =>
    if h : i < n then (Q * adjRomSolve A Cm Q (mu.getD j 0)) ⟨i, h⟩ 0 else 0⟩

/-- Embedding of ProjectionMatrices at the shape level: the function body
performs no explicit length validation, so the only failure comes from the
two matmul calls V = R_V @ diag(b) and W = R_W @ diag(c). -/
def ProjectionMatrices (A : Matrix (Fin n) (Fin n) K)
    (B : Matrix (Fin n) (Fin 1) K) (Cm : Matrix (Fin 1) (Fin n) K)
    (P Q : Matrix (Fin n) (Fin k) K) (mu b c : List K) :
    Except RomError (RawMat K × RawMat K) :=
  (matmulChecked (R_Vraw A B P mu) (diagRaw b)).bind fun V =>
    (matmulChecked (R_Wraw A Cm Q mu) (diagRaw c)).bind fun W =>
      Except.ok (V, W)

/-- Mutual shape consistency of the three system matrices: A is n-by-n
with n positive, B is n-by-1 and C is 1-by-n. -/
def shapesOK (Am Bm Cm : RawMat K) : Prop :=
  0 < Am.rows ∧ Am.cols = Am.rows ∧ Bm.rows = Am.rows ∧ Bm.cols = 1 ∧
    Cm.rows = 1 ∧ Cm.cols = Am.rows

instance (Am Bm Cm : RawMat K) : Decidable (shapesOK Am Bm Cm) := by
  unfold shapesOK
  infer_instance

/-- Modelled from the spec: MatrixModel itself performs no validation and
delegates it to the external pymor constructors, which reject mutually
inconsistent shapes (LincombOperator needs a square state operator of the
same size as the identity, StationaryModel needs a scalar-source
right-hand side n-by-1 and the output functional a single row over the
solution space).  The spec taxonomy names this failure InputShapeError. -/
def MatrixModel (Am Bm Cm : RawMat K) :
    Except RomError (RawMat K × RawMat K × RawMat K) :=
  if shapesOK Am Bm Cm then Except.ok (Am, Bm, Cm)
  else Except.error RomError.inputShape

end RawDefs

section SamplingDefs

variable {K : Type*} [Field K]

/-- Modelled from the spec: the numpy global generator behind
np.random.uniform, as an abstract stream g of unit draws together with a
position into that stream; a uniform draw on an interval is the affine
image of a unit draw.  The position is process-global state: it is
advanced by every call and is not a parameter of TFROM. -/
def drawUniformStream (lo hi : K) (g : ℕ → K) (pos ct : ℕ) : List K × ℕ :=
  (((List.range ct).map fun i => lo + (hi - lo) * g (pos + i)), pos + ct)

/-- Training-set construction of the offline phase TFROM for a real
parameter range: snap draws from np.random.uniform(low, high), taken from
the process-global stream at the current global position. -/
def TFROM_trainingSet (rng : K × K) (snap : ℕ) (g : ℕ → K) (pos : ℕ) :
    List K × ℕ :=
  drawUniformStream rng.1 rng.2 g pos snap

end SamplingDefs

section EnergyDefs

variable {L : Type*} [LinearOrderedField L]

/-- Squared singular values D**2. -/
def sqList (D : List L) : List L := D.map fun d => d * d

/-- Prefix sums np.cumsum: entry i is the sum of the first i+1 elements. -/
def cumsum (l : List L) : List L :=
  (List.range l.length).map fun i => (l.take (i + 1)).sum

/-- Normalized cumulative energy np.cumsum(D**2) / np.sum(D**2). -/
def cumulativeEnergy (D : List L) : List L :=
  (cumsum (sqList D)).map fun x => x / (sqList D).sum

/-- Index of the first true entry of a boolean list, or 0 when no entry is
true: the behavior of np.argmax on a boolean array. -/
def firstTrue : List Bool → Option ℕ
  | [] => none
  | true :: _ => some 0
  | false :: t => (firstTrue t).map (· + 1)

/-- Embedding of the energy-criterion cell: the selected number of modes
is np.argmax(cumulative_energy >= threshold) + 1. -/
def energyModes (D : List L) (θ : L) : ℕ :=
  (firstTrue ((cumulativeEnergy D).map fun x => decide (θ ≤ x))).getD 0 + 1

end EnergyDefs

section AlgebraLemmas

variable {K : Type*} [Field K] [StarRing K]
variable {n p r k : ℕ}

theorem matInv_eq_inv (M : Matrix (Fin m) (Fin m) K) : matInv M = M⁻¹ := by
  rw [Matrix.inv_def, Ring.inverse_eq_inv, matInv]

theorem proj_cancel_sq (P M : Matrix (Fin n) (Fin n) K) (hP : Pᴴ * P = 1) :
    P * matInv (Pᴴ * M * P) * Pᴴ = matInv M := by
  have hPP : P * Pᴴ = 1 := Matrix.mul_eq_one_comm.mp hP
  have h1 : P⁻¹ = Pᴴ := Matrix.inv_eq_left_inv hP
  have h2 : (Pᴴ)⁻¹ = P := Matrix.inv_eq_left_inv hPP
  rw [matInv_eq_inv, matInv_eq_inv, Matrix.mul_inv_rev, Matrix.mul_inv_rev, h1, h2]
  simp only [← Matrix.mul_assoc]
  rw [hPP, Matrix.one_mul, Matrix.mul_assoc, hPP, Matrix.mul_one]

theorem proj_cancel (P M : Matrix (Fin n) (Fin n) K) (R : Matrix (Fin n) (Fin p) K)
    (hP : Pᴴ * P = 1) :
    P * (matInv (Pᴴ * M * P) * (Pᴴ * R)) = matInv M * R := by
  simp only [← Matrix.mul_assoc]
  rw [proj_cancel_sq P M hP]

theorem romOperator_eq (A : Matrix (Fin n) (Fin n) K) (P : Matrix (Fin n) (Fin k) K)
    (s : K) : romOperator A P s = Pᴴ * fullOp A s * P := by
  simp [romOperator, fullOp, Matrix.mul_sub, Matrix.sub_mul, Matrix.mul_smul,
    Matrix.smul_mul, Matrix.mul_one]

theorem adjRomOperator_eq (A : Matrix (Fin n) (Fin n) K) (Q : Matrix (Fin n) (Fin k) K)
    (s : K) : adjRomOperator A Q s = Qᴴ * adjOp A s * Q := by
  simp [adjRomOperator, adjOp, Matrix.mul_sub, Matrix.sub_mul, Matrix.mul_smul,
    Matrix.smul_mul, Matrix.mul_one]

theorem adjOp_eq_conjTranspose (A : Matrix (Fin n) (Fin n) K) (s : K) :
    adjOp A s = (fullOp A s)ᴴ := by
  simp [adjOp, fullOp, Matrix.conjTranspose_sub, Matrix.conjTranspose_smul,
    Matrix.conjTranspose_one]

theorem matInv_conjTranspose (M : Matrix (Fin n) (Fin n) K) :
    matInv (Mᴴ) = (matInv M)ᴴ := by
  simp only [matInv, Matrix.det_conjTranspose, ← Matrix.adjugate_conjTranspose,
    Matrix.conjTranspose_smul, star_inv₀]

theorem reconstruct_primal (A : Matrix (Fin n) (Fin n) K) (B : Matrix (Fin n) (Fin 1) K)
    (P : Matrix (Fin n) (Fin n) K) (s : K) (hP : Pᴴ * P = 1) :
    P * romSolve A B P s = matInv (fullOp A s) * B := by
  rw [romSolve, romOperator_eq, proj_cancel P (fullOp A s) B hP]

theorem reconstruct_adjoint (A : Matrix (Fin n) (Fin n) K) (Cm : Matrix (Fin 1) (Fin n) K)
    (Q : Matrix (Fin n) (Fin n) K) (s : K) (hQ : Qᴴ * Q = 1) :
    Q * adjRomSolve A Cm Q s = (matInv (fullOp A s))ᴴ * Cmᵀ := by
  rw [adjRomSolve, adjRomOperator_eq, proj_cancel Q (adjOp A s) (Cmᵀ) hQ,
    adjOp_eq_conjTranspose, matInv_conjTranspose]

end AlgebraLemmas

section GramLemmas

variable {K : Type*} [Field K] [StarRing K]
variable {n r : ℕ}

theorem mgsProj_eq_self (qs : List (Fin n → K)) (v : Fin n → K)
    (h : ∀ q ∈ qs, dotc q v = 0) : mgsProj qs v = v := by
  induction qs with
  | nil => rfl
  | cons q t ih =>
    have hq : dotc q v = 0 := h q (List.mem_cons_self q t)
    show List.foldl (fun w q => w - dotc q w • q) v (q :: t) = v
    rw [List.foldl_cons, hq, zero_smul, sub_zero]
    exact ih fun p hp => h p (List.mem_cons_of_mem q hp)

theorem mgsAux_orthonormal (sq : K → K) (hsq : sq 1 = 1) :
    ∀ cols qs : List (Fin n → K),
      (∀ v ∈ cols, dotc v v = 1) →
      List.Pairwise (fun a b => dotc a b = 0) cols →
      (∀ q ∈ qs, ∀ v ∈ cols, dotc q v = 0) →
      mgsAux sq qs cols = qs.reverse ++ cols := by
  intro cols
  induction cols with
  | nil =>
    intro qs _ _ _
    rw [mgsAux, List.append_nil]
  | cons v vs ih =>
    intro qs hnorm hpair hcross
    have hproj : mgsProj qs v = v :=
      mgsProj_eq_self qs v fun q hq => hcross q hq v (List.mem_cons_self v vs)
    have hv : dotc v v = 1 := hnorm v (List.mem_cons_self v vs)
    have hnormv : normalizeCol sq (mgsProj qs v) = v := by
      rw [hproj, normalizeCol, hv, hsq, inv_one, one_smul]
    have hpv : ∀ w ∈ vs, dotc v w = 0 := (List.pairwise_cons.mp hpair).1
    have hrec := ih (v :: qs) (fun w hw => hnorm w (List.mem_cons_of_mem v hw))
      (List.pairwise_cons.mp hpair).2
      (fun q hq w hw => by
        rcases List.mem_cons.mp hq with rfl | hq2
        · exact hpv w hw
        · exact hcross q hq2 w (List.mem_cons_of_mem v hw))
    rw [mgsAux, hnormv, hrec, List.reverse_cons, List.append_assoc,
      List.singleton_append]

theorem mgs_orthonormal (sq : K → K) (hsq : sq 1 = 1) (cols : List (Fin n → K))
    (hnorm : ∀ v ∈ cols, dotc v v = 1)
    (hpair : List.Pairwise (fun a b => dotc a b = 0) cols) :
    mgs sq cols = cols := by
  rw [mgs, mgsAux_orthonormal sq hsq cols [] hnorm hpair (by intro q hq; cases hq)]
  rfl

theorem colF_dotc (Q : Matrix (Fin n) (Fin r) K) (j j2 : Fin r) :
    dotc (colF Q j) (colF Q j2) = (Qᴴ * Q) j j2 := by
  rw [dotc, Matrix.mul_apply]
  simp [colF, Matrix.conjTranspose_apply]

theorem colsOf_getD (Q : Matrix (Fin n) (Fin r) K) (j : Fin r) (df : Fin n → K) :
    (colsOf Q).getD (j : ℕ) df = colF Q j := by
  have hl : (j : ℕ) < (colsOf Q).length := by
    simp [colsOf]
  rw [List.getD_eq_getElem _ _ hl]
  simp [colsOf]

theorem gram_schmidt_orthonormal_fixed (sq : K → K) (hsq : sq 1 = 1)
    (Q : Matrix (Fin n) (Fin r) K) (hQ : Qᴴ * Q = 1) :
    gram_schmidt sq Q = Q := by
  have hnorm : ∀ v ∈ colsOf Q, dotc v v = 1 := by
    intro v hv
    simp only [colsOf] at hv
    rcases List.mem_map.mp hv with ⟨j, _, rfl⟩
    rw [colF_dotc, hQ, Matrix.one_apply_eq]
  have hpair : List.Pairwise (fun a b => dotc a b = 0) (colsOf Q) := by
    rw [colsOf, List.pairwise_map]
    refine (List.nodup_finRange r).imp ?_
    intro a b hab
    rw [colF_dotc, hQ, Matrix.one_apply_ne hab]
  have hmgs : mgs sq (colsOf Q) = colsOf Q := mgs_orthonormal sq hsq _ hnorm hpair
  ext i j
  rw [gram_schmidt, Matrix.of_apply, hmgs, colsOf_getD, colF]

end GramLemmas

section ClaimsMain

variable {K : Type*} [Field K] [StarRing K]
variable {n r k : ℕ}

/-- C1: Gram with biort=True first orthonormalizes V and W independently
into Vo and Wo, then returns (Vo * inv(Wo^T Vo), Wo); whenever Wo^T Vo is
invertible the returned pair satisfies W1^T * V1 = I exactly. -/
theorem C1_biort_identity (sq : K → K) (V W : Matrix (Fin n) (Fin r) K)
    (h : ((gram_schmidt sq W)ᵀ * gram_schmidt sq V).det ≠ 0) :
    (Gram sq V W true).1 =
      gram_schmidt sq V * matInv ((gram_schmidt sq W)ᵀ * gram_schmidt sq V) ∧
    (Gram sq V W true).2 = gram_schmidt sq W ∧
    ((Gram sq V W true).2)ᵀ * (Gram sq V W true).1 = 1 := by
  refine ⟨rfl, rfl, ?_⟩
  show (gram_schmidt sq W)ᵀ *
      (gram_schmidt sq V * matInv ((gram_schmidt sq W)ᵀ * gram_schmidt sq V)) = 1
  rw [matInv_eq_inv, ← Matrix.mul_assoc]
  exact Matrix.mul_nonsing_inv _ (isUnit_iff_ne_zero.mpr h)

theorem C1_biort_identity_witness :
    ((gram_schmidt id (1 : Matrix (Fin 1) (Fin 1) ℚ))ᵀ *
        gram_schmidt id (1 : Matrix (Fin 1) (Fin 1) ℚ)).det ≠ 0 ∧
    ((Gram id (1 : Matrix (Fin 1) (Fin 1) ℚ) 1 true).2)ᵀ *
        (Gram id (1 : Matrix (Fin 1) (Fin 1) ℚ) 1 true).1 = 1 :=
  ⟨by rw [gram_schmidt_orthonormal_fixed id rfl 1 (by simp)]; simp,
    (C1_biort_identity id 1 1
      (by rw [gram_schmidt_orthonormal_fixed id rfl 1 (by simp)]; simp)).2.2⟩

/-- C10: the W returned by Gram with biort=True is identical to the W
returned with biort=False; the biorthogonal step changes only V, by
right-multiplication with inv(Wo^T Vo). -/
theorem C10_biort_fixes_W (sq : K → K) (V W : Matrix (Fin n) (Fin r) K) :
    (Gram sq V W true).2 = (Gram sq V W false).2 ∧
    (Gram sq V W true).1 =
      (Gram sq V W false).1 *
        matInv (((Gram sq V W false).2)ᵀ * (Gram sq V W false).1) :=
  ⟨rfl, rfl⟩

/-- C2: with a basis of rank k = n whose columns are orthonormal, the
offline/online pipeline output equals the direct full-order transfer
function at every parameter where sI - A is invertible, in exact
arithmetic. -/
theorem C2_rom_equals_full (A : Matrix (Fin n) (Fin n) K)
    (B : Matrix (Fin n) (Fin 1) K) (C : Matrix (Fin 1) (Fin n) K)
    (P : Matrix (Fin n) (Fin n) K) (s : K)
    (hP : Pᴴ * P = 1) (hs : (fullOp A s).det ≠ 0) :
    romOutput A B C P s = TF_exact A B C s := by
  rw [romOutput, romSolve, romOperator_eq, Matrix.mul_assoc,
    proj_cancel P (fullOp A s) B hP, TF_exact, Matrix.mul_assoc]
  rfl

theorem C2_rom_equals_full_witness :
    ((1 : Matrix (Fin 1) (Fin 1) ℚ)ᴴ * 1 = 1) ∧
    (fullOp (0 : Matrix (Fin 1) (Fin 1) ℚ) 1).det ≠ 0 ∧
    romOutput (0 : Matrix (Fin 1) (Fin 1) ℚ) (1 : Matrix (Fin 1) (Fin 1) ℚ)
      (1 : Matrix (Fin 1) (Fin 1) ℚ) (1 : Matrix (Fin 1) (Fin 1) ℚ) 1 =
      TF_exact (0 : Matrix (Fin 1) (Fin 1) ℚ) 1 1 1 :=
  ⟨by simp, by simp [fullOp],
    C2_rom_equals_full 0 1 1 (1 : Matrix (Fin 1) (Fin 1) ℚ) 1 (by simp)
      (by simp [fullOp])⟩

/-- C3: with full-order orthonormal bases, the projection matrices built
by ProjectionMatrices before any orthogonalization equal the closed-form
matrices of the function named exact: column j of V is (s_j I - A)^{-1} B
scaled by b_j and column j of W is (conj(s_j) I - A^H)^{-1} C^T scaled by
c_j, at every point where s_j I - A is invertible. -/
theorem C3_projection_matrices_exact (A : Matrix (Fin n) (Fin n) K)
    (B : Matrix (Fin n) (Fin 1) K) (Cm : Matrix (Fin 1) (Fin n) K)
    (P Q : Matrix (Fin n) (Fin n) K) (mu b c : Fin r → K)
    (hP : Pᴴ * P = 1) (hQ : Qᴴ * Q = 1)
    (hs : ∀ j, (fullOp A (mu j)).det ≠ 0) :
    PM_V A B P mu b = exactV A B mu b ∧ PM_W A Cm Q mu c = exactW A Cm mu c := by
  constructor
  · rw [PM_V, exactV]
    congr 1
    ext i j
    rw [R_Vmat, Matrix.of_apply, Matrix.of_apply, reconstruct_primal A B P (mu j) hP]
  · rw [PM_W, exactW]
    congr 1
    ext i j
    rw [R_Wmat, Matrix.of_apply, Matrix.of_apply, reconstruct_adjoint A Cm Q (mu j) hQ]

theorem C3_projection_matrices_exact_witness :
    ((1 : Matrix (Fin 1) (Fin 1) ℚ)ᴴ * 1 = 1) ∧
    (∀ j : Fin 1, (fullOp (0 : Matrix (Fin 1) (Fin 1) ℚ) (((fun _ => 1) : Fin 1 → ℚ) j)).det ≠ 0) ∧
    PM_V (0 : Matrix (Fin 1) (Fin 1) ℚ) (1 : Matrix (Fin 1) (Fin 1) ℚ)
        (1 : Matrix (Fin 1) (Fin 1) ℚ) ((fun _ => 1) : Fin 1 → ℚ)
        ((fun _ => 1) : Fin 1 → ℚ) =
      exactV 0 1 ((fun _ => 1) : Fin 1 → ℚ) ((fun _ => 1) : Fin 1 → ℚ) :=
  ⟨by simp, by intro j; simp [fullOp],
    (C3_projection_matrices_exact 0 1 (1 : Matrix (Fin 1) (Fin 1) ℚ)
      (1 : Matrix (Fin 1) (Fin 1) ℚ) (1 : Matrix (Fin 1) (Fin 1) ℚ)
      ((fun _ => 1) : Fin 1 → ℚ) ((fun _ => 1) : Fin 1 → ℚ)
      ((fun _ => 1) : Fin 1 → ℚ) (by simp) (by simp)
      (by intro j; simp [fullOp])).1⟩

/-- C4: requesting a fixed truncation rank larger than min(n, count) makes
MatrixReductor fail with the rank-exceeded error and return no basis. -/
theorem C4_rank_guard (count kV kW : ℕ) (U_V U_W : Matrix (Fin n) (Fin n) K)
    (h : kV > min n count ∨ kW > min n count) :
    MatrixReductor count kV kW U_V U_W = Except.error RomError.rankExceeded := by
  rw [MatrixReductor]
  rcases h with h | h
  · rw [if_pos h]
  · by_cases hv : kV > min n count
    · rw [if_pos hv]
    · rw [if_neg hv, if_pos h]

theorem C4_rank_guard_witness :
    (2 > min 1 1 ∨ 0 > min 1 1) ∧
    MatrixReductor 1 2 0 (1 : Matrix (Fin 1) (Fin 1) ℚ) (1 : Matrix (Fin 1) (Fin 1) ℚ) =
      Except.error RomError.rankExceeded :=
  ⟨by decide,
    C4_rank_guard 1 2 0 (1 : Matrix (Fin 1) (Fin 1) ℚ) (1 : Matrix (Fin 1) (Fin 1) ℚ)
      (by decide)⟩

/-- C5: when the interpolation points and the two weight vectors do not
all have the same length, ProjectionMatrices fails with the input-shape
error. -/
theorem C5_length_guard (A : Matrix (Fin n) (Fin n) K)
    (B : Matrix (Fin n) (Fin 1) K) (Cm : Matrix (Fin 1) (Fin n) K)
    (P Q : Matrix (Fin n) (Fin k) K) (mu b c : List K)
    (h : ¬(mu.length = b.length ∧ mu.length = c.length)) :
    ProjectionMatrices A B Cm P Q mu b c = Except.error RomError.inputShape := by
  by_cases h1 : mu.length = b.length
  · have h2 : b.length ≠ c.length := by
      rw [← h1]
      exact fun hc => h ⟨h1, hc⟩
    simp [ProjectionMatrices, matmulChecked, R_Vraw, R_Wraw, diagRaw, h1, h2,
      Except.bind]
  · simp [ProjectionMatrices, matmulChecked, R_Vraw, diagRaw, h1, Except.bind]

theorem C5_length_guard_witness :
    ¬(([(1 : ℚ)].length = ([] : List ℚ).length ∧
        [(1 : ℚ)].length = [(1 : ℚ)].length)) ∧
    ProjectionMatrices (0 : Matrix (Fin 1) (Fin 1) ℚ) (1 : Matrix (Fin 1) (Fin 1) ℚ)
        (1 : Matrix (Fin 1) (Fin 1) ℚ) (1 : Matrix (Fin 1) (Fin 1) ℚ)
        (1 : Matrix (Fin 1) (Fin 1) ℚ) [(1 : ℚ)] [] [(1 : ℚ)] =
      Except.error RomError.inputShape :=
  ⟨by decide,
    C5_length_guard 0 (1 : Matrix (Fin 1) (Fin 1) ℚ) (1 : Matrix (Fin 1) (Fin 1) ℚ)
      (1 : Matrix (Fin 1) (Fin 1) ℚ) (1 : Matrix (Fin 1) (Fin 1) ℚ)
      [(1 : ℚ)] [] [(1 : ℚ)] (by decide)⟩

/-- C6: constructing the system model from three matrices whose shapes are
not mutually consistent (A not n-by-n, B not n-by-1 or C not 1-by-n for
one positive n) fails with the input-shape error instead of returning a
model. -/
theorem C6_shape_guard (Am Bm Cm : RawMat K) (h : ¬ shapesOK Am Bm Cm) :
    MatrixModel Am Bm Cm = Except.error RomError.inputShape := by
  rw [MatrixModel, if_neg h]

theorem C6_shape_guard_witness :
    ¬ shapesOK (⟨1, 2, fun _ _ => (0 : ℚ)⟩ : RawMat ℚ)
        ⟨1, 1, fun _ _ => 0⟩ ⟨1, 1, fun _ _ => 0⟩ ∧
    MatrixModel (⟨1, 2, fun _ _ => (0 : ℚ)⟩ : RawMat ℚ)
        ⟨1, 1, fun _ _ => 0⟩ ⟨1, 1, fun _ _ => 0⟩ =
      Except.error RomError.inputShape :=
  ⟨by decide, C6_shape_guard _ _ _ (by decide)⟩

/-- C9: orthonormalize applied to a matrix whose columns are exactly
orthonormal returns the matrix itself in exact arithmetic (idempotence of
modified Gram-Schmidt on orthonormal input), for any square-root function
fixing 1. -/
theorem C9_orthonormalize_idempotent (sq : K → K) (hsq : sq 1 = 1)
    (Q : Matrix (Fin n) (Fin r) K) (hQ : Qᴴ * Q = 1) :
    gram_schmidt sq Q = Q :=
  gram_schmidt_orthonormal_fixed sq hsq Q hQ

theorem C9_orthonormalize_idempotent_witness :
    (id (1 : ℚ) = 1) ∧ ((1 : Matrix (Fin 2) (Fin 2) ℚ)ᴴ * 1 = 1) ∧
    gram_schmidt id (1 : Matrix (Fin 2) (Fin 2) ℚ) = 1 :=
  ⟨rfl, by simp, C9_orthonormalize_idempotent id rfl 1 (by simp)⟩

end ClaimsMain

section ClaimsSampling

theorem list_map_congr {α β : Type*} (l : List α) (f g : α → β)
    (h : ∀ a ∈ l, f a = g a) : l.map f = l.map g := by
  induction l with
  | nil => rfl
  | cons a t ih =>
    rw [List.map_cons, List.map_cons, h a (List.mem_cons_self a t),
      ih fun x hx => h x (List.mem_cons_of_mem a hx)]

/-- C7 counterexample: the offline phase draws from the process-global
generator and takes no seed, so two runs with identical explicit inputs
that consume successive segments of the global stream produce different
training sets; here the second run starts at the position left by the
first. -/
theorem C7_global_rng_counterexample :
    (TFROM_trainingSet ((0 : ℚ), 1) 1 (fun i => (i : ℚ)) 0).1 ≠
      (TFROM_trainingSet ((0 : ℚ), 1) 1 (fun i => (i : ℚ))
        ((TFROM_trainingSet ((0 : ℚ), 1) 1 (fun i => (i : ℚ)) 0).2)).1 := by
  simp [TFROM_trainingSet, drawUniformStream, List.range_succ]

/-- C7 amended: the training set of the offline phase is a deterministic
function of the explicit inputs together with the consumed segment of the
process-global random stream; two runs agree exactly when they read equal
stream segments, and no per-call seed exists. -/
theorem C7_trainingSet_stream_deterministic {K : Type*} [Field K]
    (rng : K × K) (snap : ℕ) (g h : ℕ → K) (p q : ℕ)
    (hseg : ∀ i < snap, g (p + i) = h (q + i)) :
    (TFROM_trainingSet rng snap g p).1 = (TFROM_trainingSet rng snap h q).1 := by
  simp only [TFROM_trainingSet, drawUniformStream]
  apply list_map_congr
  intro a ha
  rw [hseg a (List.mem_range.mp ha)]

theorem C7_trainingSet_stream_deterministic_witness :
    (∀ i < 1, (fun j => (j : ℚ)) (0 + i) = (fun j => (j : ℚ)) (0 + i)) ∧
    (TFROM_trainingSet ((0 : ℚ), 1) 1 (fun j => (j : ℚ)) 0).1 =
      (TFROM_trainingSet ((0 : ℚ), 1) 1 (fun j => (j : ℚ)) 0).1 :=
  ⟨fun _ _ => rfl,
    C7_trainingSet_stream_deterministic ((0 : ℚ), 1) 1 (fun j => (j : ℚ))
      (fun j => (j : ℚ)) 0 0 fun _ _ => rfl⟩

end ClaimsSampling

section ClaimsEnergy

variable {L : Type*} [LinearOrderedField L]

theorem firstTrue_some :
    ∀ {l : List Bool} {i : ℕ}, firstTrue l = some i →
      i < l.length ∧ l.getD i false = true ∧ ∀ j < i, l.getD j false = false := by
  intro l
  induction l with
  | nil => intro i h; simp [firstTrue] at h
  | cons b t ih =>
    intro i h
    cases b with
    | true =>
      simp only [firstTrue] at h
      obtain rfl : i = 0 := (Option.some.inj h).symm
      refine ⟨Nat.succ_pos _, by simp [List.getD_cons_zero], ?_⟩
      intro j hj
      exact absurd hj (Nat.not_lt_zero j)
    | false =>
      simp only [firstTrue] at h
      rcases Option.map_eq_some'.mp h with ⟨a, ha, rfl⟩
      obtain ⟨h1, h2, h3⟩ := ih ha
      refine ⟨by simpa using Nat.succ_lt_succ h1, ?_, ?_⟩
      · rw [List.getD_cons_succ]; exact h2
      · intro j hj
        cases j with
        | zero => simp [List.getD_cons_zero]
        | succ j2 =>
          rw [List.getD_cons_succ]
          exact h3 j2 (by omega)

theorem firstTrue_eq_none {l : List Bool} (h : ∀ b ∈ l, b = false) :
    firstTrue l = none := by
  induction l with
  | nil => rfl
  | cons b t ih =>
    have hb : b = false := h b (List.mem_cons_self b t)
    subst hb
    simp only [firstTrue]
    rw [ih fun x hx => h x (List.mem_cons_of_mem false hx)]
    rfl

theorem firstTrue_none {l : List Bool} (h : firstTrue l = none) :
    ∀ b ∈ l, b = false := by
  induction l with
  | nil => intro b hb; cases hb
  | cons b t ih =>
    cases b with
    | true => simp [firstTrue] at h
    | false =>
      simp only [firstTrue] at h
      have ht := Option.map_eq_none'.mp h
      intro x hx
      rcases List.mem_cons.mp hx with rfl | hx2
      · rfl
      · exact ih ht x hx2

theorem sqList_nonneg (D : List L) : ∀ x ∈ sqList D, 0 ≤ x := by
  intro x hx
  rcases List.mem_map.mp hx with ⟨d, _, rfl⟩
  exact mul_self_nonneg d

theorem energyBool_getD (D : List L) (θ : L) (i : ℕ)
    (h : i < (sqList D).length) :
    ((cumulativeEnergy D).map fun x => decide (θ ≤ x)).getD i false =
      decide (θ ≤ ((sqList D).take (i + 1)).sum / (sqList D).sum) := by
  have h2 : i < (((cumulativeEnergy D).map fun x => decide (θ ≤ x)).length) := by
    simpa [cumulativeEnergy, cumsum] using h
  rw [List.getD_eq_getElem _ _ h2]
  simp [cumulativeEnergy, cumsum]

/-- C8: for every snapshot singular-value list and energy fraction θ in
(0, 1], the energy-criterion cell selects exactly the smallest k such
that the cumulative sum of the first k squared singular values reaches θ
times the total: the sum of the first k squares reaches the threshold and
every strictly shorter positive prefix stays below it. -/
theorem C8_energy_fraction (D : List L) (θ : L) (hθ0 : 0 < θ) (hθ1 : θ ≤ 1) :
    θ * (sqList D).sum ≤ ((sqList D).take (energyModes D θ)).sum ∧
    ∀ j, 0 < j → j < energyModes D θ →
      ((sqList D).take j).sum < θ * (sqList D).sum := by
  by_cases hT : (sqList D).sum = 0
  · have hmodes : energyModes D θ = 1 := by
      rw [energyModes]
      have hnone :
          firstTrue ((cumulativeEnergy D).map fun x => decide (θ ≤ x)) = none := by
        apply firstTrue_eq_none
        intro b hb
        rcases List.mem_map.mp hb with ⟨x, hx, rfl⟩
        rcases List.mem_map.mp hx with ⟨y, _, rfl⟩
        rw [hT, div_zero]
        simp [not_le.mpr hθ0]
      rw [hnone]
      rfl
    constructor
    · rw [hmodes, hT, mul_zero]
      apply List.sum_nonneg
      intro x hx
      exact sqList_nonneg D x (List.mem_of_mem_take hx)
    · intro j hj0 hj1
      rw [hmodes] at hj1
      omega
  · have hTnn : 0 ≤ (sqList D).sum := List.sum_nonneg (sqList_nonneg D)
    have hTpos : 0 < (sqList D).sum := lt_of_le_of_ne hTnn (Ne.symm hT)
    have hne : sqList D ≠ [] := by
      intro h0
      apply hT
      rw [h0]
      rfl
    have hm : 0 < (sqList D).length := List.length_pos.mpr hne
    have hblen : (((cumulativeEnergy D).map fun x => decide (θ ≤ x)).length) =
        (sqList D).length := by
      simp [cumulativeEnergy, cumsum]
    have hlast : ((cumulativeEnergy D).map fun x => decide (θ ≤ x)).getD
        ((sqList D).length - 1) false = true := by
      rw [energyBool_getD D θ _ (by omega)]
      have hx : (sqList D).length - 1 + 1 = (sqList D).length := by omega
      rw [hx, List.take_length, div_self hT]
      exact decide_eq_true hθ1
    have hmem : true ∈ (cumulativeEnergy D).map fun x => decide (θ ≤ x) := by
      rw [← hlast, List.getD_eq_getElem _ _ (by rw [hblen]; omega)]
      exact List.getElem_mem _
    cases hft : firstTrue ((cumulativeEnergy D).map fun x => decide (θ ≤ x)) with
    | none => exact absurd (firstTrue_none hft true hmem) (by simp)
    | some i =>
      obtain ⟨hilen, htrue, hfalse⟩ := firstTrue_some hft
      rw [hblen] at hilen
      have hmodes : energyModes D θ = i + 1 := by
        rw [energyModes, hft]
        rfl
      constructor
      · rw [hmodes]
        rw [energyBool_getD D θ i hilen] at htrue
        exact (le_div_iff₀ hTpos).mp (of_decide_eq_true htrue)
      · intro j hj0 hjlt
        rw [hmodes] at hjlt
        have hf := hfalse (j - 1) (by omega)
        rw [energyBool_getD D θ (j - 1) (by omega)] at hf
        have hlt : ((sqList D).take ((j - 1) + 1)).sum / (sqList D).sum < θ :=
          not_le.mp (of_decide_eq_false hf)
        have hj2 : (j - 1) + 1 = j := by omega
        rw [hj2] at hlt
        exact (div_lt_iff₀ hTpos).mp hlt

theorem C8_energy_fraction_witness :
    (0 < (1 / 2 : ℚ)) ∧ ((1 / 2 : ℚ) ≤ 1) ∧
    ((1 / 2 : ℚ) * (sqList [(2 : ℚ), 1]).sum ≤
      ((sqList [(2 : ℚ), 1]).take (energyModes [(2 : ℚ), 1] (1 / 2))).sum) :=
  ⟨by norm_num, by norm_num,
    (C8_energy_fraction [(2 : ℚ), 1] (1 / 2) (by norm_num) (by norm_num)).1⟩

end ClaimsEnergy

end MatrixReduction
